import Mathlib

/-!
Verification of the tidyhome recurrence engine (`src/utils/migration.ts`) and
weekly scheduler (`src/utils/scheduler.ts`).

Calendar dates are `YYYY-MM-DD` strings in the source, manipulated through the
JavaScript `Date` object in the local timezone.  We embed such a string as a
`Date` structure of numeric fields.  String comparison of `YYYY-MM-DD` strings
is the lexicographic order, which coincides with the componentwise
(year, month, day) lexicographic order embedded here.  JavaScript day-of-week
(`getDay`), calendar day stepping (`setDate(getDate()+1)`), month lengths and
millisecond differences (`getTime`, rounded to whole days by the source's
`diffDays`) are embedded by proleptic-Gregorian day counting (`toDays`).
-/

set_option maxRecDepth 8000

namespace TidyHome

/-- A calendar date `YYYY-MM-DD` (month and day 1-based, as in the string form). -/
structure Date where
  year : Nat
  month : Nat
  day : Nat
deriving DecidableEq, Repr

/-- Gregorian leap-year test, as implied by the JavaScript `Date` calendar. -/
def isLeap (y : Nat) : Bool :=
  (y % 4 == 0 && y % 100 != 0) || y % 400 == 0

/-- Length of 1-based month `m` (0 outside 1..12). -/
def monthLen (leap : Bool) (m : Nat) : Nat :=
  match m with
  | 1 => 31 | 2 => if leap then 29 else 28 | 3 => 31 | 4 => 30 | 5 => 31 | 6 => 30
  | 7 => 31 | 8 => 31 | 9 => 30 | 10 => 31 | 11 => 30 | 12 => 31 | _ => 0

/-- Source `daysInMonth(year, month)` (0-based month, via `new Date(year, month+1, 0).getDate()`). -/
def daysInMonth (year month : Nat) : Nat :=
  monthLen (isLeap year) (month + 1)

/-- A structurally well-formed calendar date (what a real `YYYY-MM-DD` string denotes). -/
def Date.Valid (d : Date) : Prop :=
  1 ≤ d.month ∧ d.month ≤ 12 ∧ 1 ≤ d.day ∧ d.day ≤ daysInMonth d.year (d.month - 1)

instance (d : Date) : Decidable d.Valid := by
  unfold Date.Valid; exact inferInstance

/-- Days in months before 1-based month `m` within one year. -/
def daysBeforeMonth (leap : Bool) : Nat → Nat
  | 0 => 0
  | m + 1 => daysBeforeMonth leap m + monthLen leap m

/-- Number of leap years `k` with `0 ≤ k < y` (proleptic Gregorian). -/
def leapsBefore (y : Nat) : Nat :=
  (y + 3) / 4 - (y + 99) / 100 + (y + 399) / 400

/-- Days from 0000-01-01 to `y`-01-01 (proleptic Gregorian). -/
def daysBeforeYear (y : Nat) : Nat :=
  365 * y + leapsBefore y

/-- Day number of a date counted from 0000-01-01 (proleptic Gregorian). -/
def toDays (d : Date) : Nat :=
  daysBeforeYear d.year + daysBeforeMonth (isLeap d.year) d.month + (d.day - 1)

/-- Source `dayOfWeek` (`toDate(dateStr).getDay()`): 0 = Sunday .. 6 = Saturday.
2000-01-01 was a Saturday and has day number 730485 = 7 * 104355. -/
def dayOfWeek (d : Date) : Nat :=
  (toDays d + 6) % 7

/-- Source `dayOfMonth` (`toDate(dateStr).getDate()`). -/
def dayOfMonth (d : Date) : Nat :=
  d.day

/-- The calendar day after `d` (source `addDays(dateStr, 1)` via `setDate(getDate() + 1)`). -/
def nextDay (d : Date) : Date :=
  if d.day < daysInMonth d.year (d.month - 1) then ⟨d.year, d.month, d.day + 1⟩
  else if d.month < 12 then ⟨d.year, d.month + 1, 1⟩
  else ⟨d.year + 1, 1, 1⟩

/-- Source `addDays(dateStr, days)` for a non-negative count of days. -/
def addDays (d : Date) : Nat → Date
  | 0 => d
  | n + 1 => nextDay (addDays d n)

/-- Source `diffDays(a, b)`: whole days from `a` to `b`
(`Math.round((db.getTime() - da.getTime()) / 86400000)`, which is the exact
calendar-day difference). -/
def diffDays (a b : Date) : Int :=
  (toDays b : Int) - (toDays a : Int)

/-- Date order: `YYYY-MM-DD` string comparison is componentwise lexicographic. -/
def Date.le (a b : Date) : Prop :=
  a.year < b.year ∨ (a.year = b.year ∧
    (a.month < b.month ∨ (a.month = b.month ∧ a.day ≤ b.day)))

/-- Strict date order. -/
def Date.lt (a b : Date) : Prop :=
  a.year < b.year ∨ (a.year = b.year ∧
    (a.month < b.month ∨ (a.month = b.month ∧ a.day < b.day)))

instance : LE Date := ⟨Date.le⟩

instance : LT Date := ⟨Date.lt⟩

theorem Date.le_def (a b : Date) : a ≤ b ↔
    (a.year < b.year ∨ (a.year = b.year ∧
      (a.month < b.month ∨ (a.month = b.month ∧ a.day ≤ b.day)))) := Iff.rfl

theorem Date.lt_def (a b : Date) : a < b ↔
    (a.year < b.year ∨ (a.year = b.year ∧
      (a.month < b.month ∨ (a.month = b.month ∧ a.day < b.day)))) := Iff.rfl

instance (a b : Date) : Decidable (a ≤ b) := by
  rw [Date.le_def]; exact inferInstance

instance (a b : Date) : Decidable (a < b) := by
  rw [Date.lt_def]; exact inferInstance

theorem Date.le_refl (a : Date) : a ≤ a := by
  simp [Date.le_def]

theorem Date.le_trans {a b c : Date} (h1 : a ≤ b) (h2 : b ≤ c) : a ≤ c := by
  simp only [Date.le_def] at *; omega

theorem Date.lt_of_lt_of_le {a b c : Date} (h1 : a < b) (h2 : b ≤ c) : a < c := by
  simp only [Date.le_def, Date.lt_def] at *; omega

theorem Date.lt_of_le_of_lt {a b c : Date} (h1 : a ≤ b) (h2 : b < c) : a < c := by
  simp only [Date.le_def, Date.lt_def] at *; omega

theorem Date.le_of_lt {a b : Date} (h : a < b) : a ≤ b := by
  simp only [Date.le_def, Date.lt_def] at *; omega

theorem Date.le_of_not_lt {a b : Date} (h : ¬ b < a) : a ≤ b := by
  simp only [Date.le_def, Date.lt_def] at *; omega

theorem Date.not_le_of_lt {a b : Date} (h : a < b) : ¬ b ≤ a := by
  simp only [Date.le_def, Date.lt_def] at *; omega

theorem Date.ne_of_lt {a b : Date} (h : a < b) : a ≠ b := by
  intro he; subst he; simp only [Date.lt_def] at h; omega

theorem Date.le_antisymm {a b : Date} (h1 : a ≤ b) (h2 : b ≤ a) : a = b := by
  have hy : a.year = b.year := by simp only [Date.le_def] at *; omega
  have hm : a.month = b.month := by simp only [Date.le_def] at *; omega
  have hd : a.day = b.day := by simp only [Date.le_def] at *; omega
  cases a; cases b; simp_all

/-! Calendar arithmetic facts about `toDays`. -/

theorem leapsBefore_succ (y : Nat) :
    leapsBefore (y + 1) = leapsBefore y + (if isLeap y = true then 1 else 0) := by
  have h : isLeap y = true ↔ ((y % 4 = 0 ∧ ¬ y % 100 = 0) ∨ y % 400 = 0) := by
    simp [isLeap]
  unfold leapsBefore
  split <;> rename_i hif
  · rw [h] at hif; omega
  · rw [h] at hif; omega

theorem daysBeforeYear_succ (y : Nat) :
    daysBeforeYear (y + 1) = daysBeforeYear y + 365 + (if isLeap y = true then 1 else 0) := by
  unfold daysBeforeYear
  rw [leapsBefore_succ]; ring

theorem daysBeforeYear_mono {y y' : Nat} (h : y ≤ y') : daysBeforeYear y ≤ daysBeforeYear y' := by
  induction y' with
  | zero =>
    have : y = 0 := by omega
    subst this; exact Nat.le_refl _
  | succ n ih =>
    rcases Nat.lt_or_ge y (n + 1) with h1 | h1
    · have := ih (by omega)
      rw [daysBeforeYear_succ]; omega
    · have : y = n + 1 := by omega
      subst this; exact Nat.le_refl _

theorem daysBeforeMonth_succ (leap : Bool) (m : Nat) :
    daysBeforeMonth leap (m + 1) = daysBeforeMonth leap m + monthLen leap m := rfl

theorem daysBeforeMonth_mono (leap : Bool) {m m' : Nat} (h : m ≤ m') :
    daysBeforeMonth leap m ≤ daysBeforeMonth leap m' := by
  induction m' with
  | zero =>
    have : m = 0 := by omega
    subst this; exact Nat.le_refl _
  | succ n ih =>
    rcases Nat.lt_or_ge m (n + 1) with h1 | h1
    · have := ih (by omega)
      rw [daysBeforeMonth_succ]; omega
    · have : m = n + 1 := by omega
      subst this; exact Nat.le_refl _

theorem daysBeforeMonth_13 (leap : Bool) :
    daysBeforeMonth leap 13 = 365 + (if leap = true then 1 else 0) := by
  cases leap <;> rfl

theorem monthLen_eq_daysInMonth (y m : Nat) (h : 1 ≤ m) :
    monthLen (isLeap y) m = daysInMonth y (m - 1) := by
  unfold daysInMonth
  congr 1
  omega

/-- Valid dates of one year stay within the year's day span. -/
theorem toDays_year_bound {d : Date} (h : d.Valid) :
    daysBeforeYear d.year ≤ toDays d ∧ toDays d < daysBeforeYear (d.year + 1) := by
  obtain ⟨hm1, hm2, hd1, hd2⟩ := h
  constructor
  · unfold toDays; omega
  · unfold toDays
    rw [daysBeforeYear_succ]
    have hlen : monthLen (isLeap d.year) d.month = daysInMonth d.year (d.month - 1) :=
      monthLen_eq_daysInMonth d.year d.month hm1
    have hstep : daysBeforeMonth (isLeap d.year) (d.month + 1)
        = daysBeforeMonth (isLeap d.year) d.month + monthLen (isLeap d.year) d.month :=
      daysBeforeMonth_succ _ _
    have hmono : daysBeforeMonth (isLeap d.year) (d.month + 1)
        ≤ daysBeforeMonth (isLeap d.year) 13 := daysBeforeMonth_mono _ (by omega)
    have h13 := daysBeforeMonth_13 (isLeap d.year)
    omega

theorem toDays_lt_of_lt {d1 d2 : Date} (h1 : d1.Valid) (h2 : d2.Valid) (h : d1 < d2) :
    toDays d1 < toDays d2 := by
  rw [Date.lt_def] at h
  rcases h with hy | ⟨hy, h⟩
  · have b1 := toDays_year_bound h1
    have b2 := toDays_year_bound h2
    have := daysBeforeYear_mono (show d1.year + 1 ≤ d2.year by omega)
    omega
  · rcases h with hm | ⟨hm, hd⟩
    · obtain ⟨hm1, _, hd1, hd2⟩ := h1
      have hlen : monthLen (isLeap d1.year) d1.month = daysInMonth d1.year (d1.month - 1) :=
        monthLen_eq_daysInMonth d1.year d1.month hm1
      have hstep := daysBeforeMonth_succ (isLeap d1.year) d1.month
      have hmono : daysBeforeMonth (isLeap d1.year) (d1.month + 1)
          ≤ daysBeforeMonth (isLeap d1.year) d2.month := daysBeforeMonth_mono _ (by omega)
      obtain ⟨_, _, hd1', _⟩ := h2
      unfold toDays
      rw [← hy]
      omega
    · unfold toDays
      rw [← hy, ← hm]
      obtain ⟨_, _, hda, _⟩ := h1
      obtain ⟨_, _, hdb, _⟩ := h2
      omega

theorem Date.lt_of_le_of_ne {a b : Date} (h : a ≤ b) (hne : a ≠ b) : a < b := by
  have hc : ¬ (a.year = b.year ∧ a.month = b.month ∧ a.day = b.day) := by
    intro hcomp
    apply hne
    obtain ⟨e1, e2, e3⟩ := hcomp
    cases a; cases b; simp_all
  simp only [Date.le_def] at h
  simp only [Date.lt_def]
  omega

theorem toDays_le_of_le {d1 d2 : Date} (h1 : d1.Valid) (h2 : d2.Valid) (h : d1 ≤ d2) :
    toDays d1 ≤ toDays d2 := by
  rcases Classical.em (d1 = d2) with he | he
  · subst he; exact Nat.le_refl _
  · exact Nat.le_of_lt (toDays_lt_of_lt h1 h2 (Date.lt_of_le_of_ne h he))

theorem toDays_le_iff {d1 d2 : Date} (h1 : d1.Valid) (h2 : d2.Valid) :
    toDays d1 ≤ toDays d2 ↔ d1 ≤ d2 := by
  constructor
  · intro h
    by_contra hc
    have : d2 < d1 := by
      simp only [Date.le_def] at hc
      simp only [Date.lt_def]
      omega
    have := toDays_lt_of_lt h2 h1 this
    omega
  · exact toDays_le_of_le h1 h2

theorem toDays_inj {d1 d2 : Date} (h1 : d1.Valid) (h2 : d2.Valid)
    (h : toDays d1 = toDays d2) : d1 = d2 := by
  apply Date.le_antisymm
  · exact (toDays_le_iff h1 h2).mp (by omega)
  · exact (toDays_le_iff h2 h1).mp (by omega)

/-- A valid date lexicographically below any (possibly malformed) date has a
day number at most the other's. -/
theorem toDays_le_of_le_left_valid {d e : Date} (hd : d.Valid) (h : d ≤ e) :
    toDays d ≤ toDays e := by
  rw [Date.le_def] at h
  rcases h with hy | ⟨hy, h⟩
  · have b := toDays_year_bound hd
    have := daysBeforeYear_mono (show d.year + 1 ≤ e.year by omega)
    have : daysBeforeYear e.year ≤ toDays e := by unfold toDays; omega
    omega
  · rcases h with hm | ⟨hm, hday⟩
    · obtain ⟨hm1, _, hd1, hd2⟩ := hd
      have hlen : monthLen (isLeap d.year) d.month = daysInMonth d.year (d.month - 1) :=
        monthLen_eq_daysInMonth d.year d.month hm1
      have hstep := daysBeforeMonth_succ (isLeap d.year) d.month
      have hmono : daysBeforeMonth (isLeap d.year) (d.month + 1)
          ≤ daysBeforeMonth (isLeap d.year) e.month := daysBeforeMonth_mono _ (by omega)
      unfold toDays
      rw [← hy]
      omega
    · unfold toDays
      rw [← hy, ← hm]
      omega

theorem nextDay_lt (d : Date) : d < nextDay d := by
  unfold nextDay
  split <;> [skip; split] <;> simp [Date.lt_def]

theorem daysInMonth_pos (y m : Nat) (h : m ≤ 11) : 1 ≤ daysInMonth y m := by
  cases hl : isLeap y <;> unfold daysInMonth <;> rw [hl] <;>
    interval_cases m <;> simp [monthLen]

theorem nextDay_valid {d : Date} (h : d.Valid) : (nextDay d).Valid := by
  obtain ⟨hm1, hm2, hd1, hd2⟩ := h
  unfold nextDay
  split <;> rename_i h1
  · dsimp only [Date.Valid]
    omega
  · split <;> rename_i h2
    · have hdim : 1 ≤ daysInMonth d.year (d.month + 1 - 1) :=
        daysInMonth_pos d.year (d.month + 1 - 1) (by omega)
      dsimp only [Date.Valid]
      omega
    · have hdim : 1 ≤ daysInMonth (d.year + 1) (1 - 1) :=
        daysInMonth_pos (d.year + 1) (1 - 1) (by omega)
      dsimp only [Date.Valid]
      omega

theorem toDays_nextDay {d : Date} (h : d.Valid) : toDays (nextDay d) = toDays d + 1 := by
  obtain ⟨hm1, hm2, hd1, hd2⟩ := h
  unfold nextDay
  split <;> rename_i h1
  · unfold toDays; dsimp only; omega
  · split <;> rename_i h2
    · have hlen : monthLen (isLeap d.year) d.month = daysInMonth d.year (d.month - 1) :=
        monthLen_eq_daysInMonth d.year d.month hm1
      have hstep := daysBeforeMonth_succ (isLeap d.year) d.month
      unfold toDays
      dsimp only
      omega
    · have hm12 : d.month = 12 := by omega
      have hlen : monthLen (isLeap d.year) 12 = daysInMonth d.year (12 - 1) :=
        monthLen_eq_daysInMonth d.year 12 (by omega)
      have hstep : daysBeforeMonth (isLeap d.year) 13
          = daysBeforeMonth (isLeap d.year) 12 + monthLen (isLeap d.year) 12 :=
        daysBeforeMonth_succ (isLeap d.year) 12
      have hcomb : daysBeforeYear (d.year + 1)
          = daysBeforeYear d.year + daysBeforeMonth (isLeap d.year) 13 := by
        rw [daysBeforeYear_succ, daysBeforeMonth_13, Nat.add_assoc]
      have hlen31 : monthLen (isLeap d.year) 12 = 31 := rfl
      have hb1 : daysBeforeMonth (isLeap (d.year + 1)) 1 = 0 := by
        cases hl : isLeap (d.year + 1) <;> rfl
      unfold toDays
      dsimp only
      rw [hm12] at hd2 h1 ⊢
      omega

theorem addDays_valid {d : Date} (h : d.Valid) (n : Nat) : (addDays d n).Valid := by
  induction n with
  | zero => exact h
  | succ k ih => exact nextDay_valid ih

theorem toDays_addDays {d : Date} (h : d.Valid) (n : Nat) :
    toDays (addDays d n) = toDays d + n := by
  induction n with
  | zero => rfl
  | succ k ih =>
    show toDays (nextDay (addDays d k)) = toDays d + (k + 1)
    rw [toDays_nextDay (addDays_valid h k), ih]
    omega

theorem le_iff_eq_or_nextDay_le {d1 d2 : Date} (h1 : d1.Valid) (h2 : d2.Valid) :
    d1 ≤ d2 ↔ (d1 = d2 ∨ nextDay d1 ≤ d2) := by
  constructor
  · intro h
    have hdays := toDays_le_of_le h1 h2 h
    rcases Nat.eq_or_lt_of_le hdays with he | hlt
    · exact Or.inl (toDays_inj h1 h2 he)
    · right
      rw [← toDays_le_iff (nextDay_valid h1) h2, toDays_nextDay h1]
      omega
  · intro h
    rcases h with he | h
    · subst he; exact Date.le_refl _
    · exact Date.le_trans (Date.le_of_lt (nextDay_lt d1)) h

/-! The day-by-day scan shared by the Daily, Weekly and BiWeekly cases of
`getTaskOccurrences`: `while (current <= endDate) { if (p(current)) push; current = addDays(current, 1) }`.
The source loop needs no fuel; here the recursion is bounded by a fuel that the
caller (`getTaskOccurrences`) always picks large enough to cover the range. -/

def occLoop (p : Date → Bool) : Nat → Date → Date → List Date
  | 0, _, _ => []
  | fuel + 1, current, endDate =>
    if current ≤ endDate then
      (if p current then [current] else []) ++ occLoop p fuel (nextDay current) endDate
    else []

/-- Enough fuel to scan every calendar day of `[s, e]`. -/
def rangeFuel (s e : Date) : Nat :=
  toDays e + 1 - toDays s

theorem rangeFuel_spec (s e : Date) : toDays e + 1 ≤ toDays s + rangeFuel s e := by
  unfold rangeFuel; omega

theorem occLoop_sound {p : Date → Bool} {fuel : Nat} {c e d : Date}
    (h : d ∈ occLoop p fuel c e) : c ≤ d ∧ d ≤ e ∧ p d = true := by
  induction fuel generalizing c with
  | zero => simp [occLoop] at h
  | succ n ih =>
    unfold occLoop at h
    split at h
    · rename_i hce
      rcases List.mem_append.mp h with h1 | h1
      · split at h1
        · rename_i hp
          have : d = c := by simpa using h1
          subst this
          exact ⟨Date.le_refl d, hce, hp⟩
        · simp at h1
      · obtain ⟨ha, hb, hc⟩ := ih h1
        exact ⟨Date.le_trans (Date.le_of_lt (nextDay_lt c)) ha, hb, hc⟩
    · simp at h

theorem occLoop_pairwise (p : Date → Bool) (fuel : Nat) (c e : Date) :
    (occLoop p fuel c e).Pairwise Date.lt := by
  induction fuel generalizing c with
  | zero => simp [occLoop]
  | succ n ih =>
    unfold occLoop
    split
    · refine List.pairwise_append.mpr ⟨?_, ih (nextDay c), ?_⟩
      · split <;> simp
      · intro a ha b hb
        have ha' : a = c := by
          split at ha <;> simp at ha
          exact ha
        subst ha'
        have := (occLoop_sound hb).1
        exact Date.lt_of_lt_of_le (nextDay_lt a) this
    · simp

theorem occLoop_mem {p : Date → Bool} {fuel : Nat} {c e : Date} (d : Date)
    (hc : c.Valid) (hfuel : toDays e + 1 ≤ toDays c + fuel) :
    d ∈ occLoop p fuel c e ↔ (d.Valid ∧ c ≤ d ∧ d ≤ e ∧ p d = true) := by
  induction fuel generalizing c with
  | zero =>
    simp only [occLoop, List.not_mem_nil, false_iff]
    intro ⟨hd, hcd, hde, _⟩
    have h1 := toDays_le_of_le hc hd hcd
    have h2 := toDays_le_of_le_left_valid hd hde
    omega
  | succ n ih =>
    unfold occLoop
    split <;> rename_i hce
    · rw [List.mem_append]
      have hnv : (nextDay c).Valid := nextDay_valid hc
      have hnf : toDays e + 1 ≤ toDays (nextDay c) + n := by
        rw [toDays_nextDay hc]; omega
      rw [ih hnv hnf]
      constructor
      · intro h
        rcases h with h1 | h1
        · have hp : p c = true ∧ d = c := by
            split at h1 <;> simp_all
          obtain ⟨hp, he⟩ := hp
          subst he
          exact ⟨hc, Date.le_refl d, hce, hp⟩
        · obtain ⟨hv, hcd, hde, hp⟩ := h1
          exact ⟨hv, Date.le_trans (Date.le_of_lt (nextDay_lt c)) hcd, hde, hp⟩
      · intro ⟨hv, hcd, hde, hp⟩
        rcases (le_iff_eq_or_nextDay_le hc hv).mp hcd with he | hnd
        · subst he
          left
          rw [hp]
          simp
        · right
          exact ⟨hv, hnd, hde, hp⟩
    · simp only [List.not_mem_nil, false_iff]
      intro ⟨hd, hcd, hde, _⟩
      exact hce (Date.le_trans hcd hde)

/-! The month-by-month walk shared by the Monthly and Quarterly cases of
`getTaskOccurrences`.  `month` is 0-based as in the source (`start.getMonth()`).
`check` is the Quarterly cycle test (constantly `true` for Monthly).  The
source is a `while (true)` loop that always terminates through its two
`break`s; here the recursion carries a fuel that the caller picks large
enough that a `break` is always reached first. -/

/-- The date materialized for one month of the walk:
`min(targetDom, daysInMonth(year, month))`, month 0-based. -/
def clampDate (targetDom year month : Nat) : Date :=
  ⟨year, month + 1, min targetDom (daysInMonth year month)⟩

def monthLoop (check : Nat → Bool) (targetDom : Nat) (startDate endDate : Date) :
    Nat → Nat → Nat → List Date
  | 0, _, _ => []
  | fuel + 1, year, month =>
    let next : List Date :=
      let year2 := if month + 1 > 11 then year + 1 else year
      let month2 := if month + 1 > 11 then 0 else month + 1
      if year2 > endDate.year + 1 then []
      else monthLoop check targetDom startDate endDate fuel year2 month2
    if check month then
      if endDate < clampDate targetDom year month then []
      else (if startDate ≤ clampDate targetDom year month
            then [clampDate targetDom year month] else []) ++ next
    else next

/-- The continuation of the walk after one month (`month++`, wrap, safety bound). -/
def monthNext (check : Nat → Bool) (targetDom : Nat) (startDate endDate : Date)
    (fuel year month : Nat) : List Date :=
  if (if month + 1 > 11 then year + 1 else year) > endDate.year + 1 then []
  else monthLoop check targetDom startDate endDate fuel
    (if month + 1 > 11 then year + 1 else year)
    (if month + 1 > 11 then 0 else month + 1)

theorem monthLoop_succ (check : Nat → Bool) (targetDom : Nat) (s e : Date)
    (fuel year month : Nat) :
    monthLoop check targetDom s e (fuel + 1) year month =
      if check month then
        if e < clampDate targetDom year month then []
        else (if s ≤ clampDate targetDom year month
              then [clampDate targetDom year month] else [])
          ++ monthNext check targetDom s e fuel year month
      else monthNext check targetDom s e fuel year month := rfl

/-- Enough fuel for the month walk to always reach one of the source's breaks. -/
def monthFuel (s e : Date) : Nat :=
  12 * (e.year + 2) + 13 - 12 * s.year

theorem clampDate_year (dom y m : Nat) : (clampDate dom y m).year = y := rfl

theorem clampDate_month (dom y m : Nat) : (clampDate dom y m).month = m + 1 := rfl

theorem clampDate_day (dom y m : Nat) :
    (clampDate dom y m).day = min dom (daysInMonth y m) := rfl

/-- A materialized month date lies strictly after the walk position that
produced any earlier month. -/
theorem clampDate_lt_of_monthIdx_lt {dom : Nat} {d : Date} (y m : Nat)
    (h1 : 1 ≤ d.month) (h2 : d.month ≤ 12)
    (hidx : 12 * y + m < 12 * d.year + (d.month - 1)) :
    clampDate dom y m < d := by
  simp only [Date.lt_def, clampDate]
  omega

theorem eq_clampDate_of_monthIdx_eq {dom : Nat} {d : Date} (y m : Nat) (hm : m ≤ 11)
    (h1 : 1 ≤ d.month) (h2 : d.month ≤ 12)
    (hday : d.day = min dom (daysInMonth d.year (d.month - 1)))
    (hidx : 12 * y + m = 12 * d.year + (d.month - 1)) :
    d = clampDate dom y m := by
  have hy : d.year = y := by omega
  have hmth : d.month = m + 1 := by omega
  cases d with
  | mk Y M D =>
    dsimp only at hy hmth hday
    subst hy
    subst hmth
    unfold clampDate
    have : m + 1 - 1 = m := by omega
    rw [this] at hday
    rw [hday]

/-- A date whose month index is at least 12 more than the end year's index
cannot be inside the range. -/
theorem not_le_of_monthIdx_far {d e : Date} (h2 : d.month ≤ 12)
    (hbig : 12 * (e.year + 2) ≤ 12 * d.year + (d.month - 1)) : ¬ d ≤ e := by
  simp only [Date.le_def]
  omega

theorem monthLoop_sound {check : Nat → Bool} {dom : Nat} {s e : Date}
    {fuel y m : Nat} {d : Date}
    (h : d ∈ monthLoop check dom s e fuel y m) : s ≤ d ∧ d ≤ e := by
  induction fuel generalizing y m with
  | zero => simp [monthLoop] at h
  | succ n ih =>
    rw [monthLoop_succ] at h
    have hnext : d ∈ monthNext check dom s e n y m → s ≤ d ∧ d ≤ e := by
      intro hmem
      unfold monthNext at hmem
      by_cases hwrap : m + 1 > 11
      · simp only [if_pos hwrap] at hmem
        split at hmem
        · simp at hmem
        · exact ih hmem
      · simp only [if_neg hwrap] at hmem
        split at hmem
        · simp at hmem
        · exact ih hmem
    split at h
    · split at h <;> rename_i hbreak
      · simp at h
      · rcases List.mem_append.mp h with h1 | h1
        · split at h1 <;> rename_i hpush
          · have : d = clampDate dom y m := by simpa using h1
            subst this
            exact ⟨hpush, Date.le_of_not_lt hbreak⟩
          · simp at h1
        · exact hnext h1
    · exact hnext h

/-- Every element produced from walk position `(y, m)` is a materialized month
date of a month at or after `(y, m)` that passes `check`. -/
theorem monthLoop_shape {check : Nat → Bool} {dom : Nat} {s e : Date}
    {fuel y m : Nat} {d : Date} (hm : m ≤ 11)
    (h : d ∈ monthLoop check dom s e fuel y m) :
    1 ≤ d.month ∧ d.month ≤ 12 ∧ check (d.month - 1) = true ∧
      d.day = min dom (daysInMonth d.year (d.month - 1)) ∧
      12 * y + m ≤ 12 * d.year + (d.month - 1) := by
  induction fuel generalizing y m with
  | zero => simp [monthLoop] at h
  | succ n ih =>
    rw [monthLoop_succ] at h
    have hnext : d ∈ monthNext check dom s e n y m →
        1 ≤ d.month ∧ d.month ≤ 12 ∧ check (d.month - 1) = true ∧
          d.day = min dom (daysInMonth d.year (d.month - 1)) ∧
          12 * y + m ≤ 12 * d.year + (d.month - 1) := by
      intro hmem
      unfold monthNext at hmem
      by_cases hwrap : m + 1 > 11
      · simp only [if_pos hwrap] at hmem
        split at hmem
        · simp at hmem
        · have hr := @ih (y + 1) 0 (by omega) hmem
          refine ⟨hr.1, hr.2.1, hr.2.2.1, hr.2.2.2.1, ?_⟩
          have := hr.2.2.2.2
          omega
      · simp only [if_neg hwrap] at hmem
        split at hmem
        · simp at hmem
        · have hr := @ih y (m + 1) (by omega) hmem
          refine ⟨hr.1, hr.2.1, hr.2.2.1, hr.2.2.2.1, ?_⟩
          have := hr.2.2.2.2
          omega
    split at h <;> rename_i hcheck
    · split at h <;> rename_i hbreak
      · simp at h
      · rcases List.mem_append.mp h with h1 | h1
        · split at h1 <;> rename_i hpush
          · have he : d = clampDate dom y m := by simpa using h1
            subst he
            have hred : m + 1 - 1 = m := by omega
            refine ⟨?_, ?_, ?_, ?_, ?_⟩
            · simp only [clampDate_month]; omega
            · simp only [clampDate_month]; omega
            · simp only [clampDate_month, hred]; exact hcheck
            · simp only [clampDate_day, clampDate_year, clampDate_month, hred]
            · simp only [clampDate_year, clampDate_month, hred]; omega
          · simp at h1
        · exact hnext h1
    · exact hnext h

theorem monthLoop_pairwise (check : Nat → Bool) (dom : Nat) (s e : Date) :
    ∀ (fuel y m : Nat), m ≤ 11 → (monthLoop check dom s e fuel y m).Pairwise Date.lt := by
  intro fuel
  induction fuel with
  | zero => intro y m hm; simp [monthLoop]
  | succ n ih =>
    intro y m hm
    rw [monthLoop_succ]
    have hnext : (monthNext check dom s e n y m).Pairwise Date.lt := by
      unfold monthNext
      by_cases hwrap : m + 1 > 11
      · simp only [if_pos hwrap]
        split
        · simp
        · exact ih (y + 1) 0 (by omega)
      · simp only [if_neg hwrap]
        split
        · simp
        · exact ih y (m + 1) (by omega)
    have hcross : ∀ b ∈ monthNext check dom s e n y m, clampDate dom y m < b := by
      intro b hb
      unfold monthNext at hb
      by_cases hwrap : m + 1 > 11
      · simp only [if_pos hwrap] at hb
        split at hb
        · simp at hb
        · have hs := monthLoop_shape (show (0 : Nat) ≤ 11 by omega) hb
          refine clampDate_lt_of_monthIdx_lt y m hs.1 hs.2.1 ?_
          have := hs.2.2.2.2
          omega
      · simp only [if_neg hwrap] at hb
        split at hb
        · simp at hb
        · have hs := monthLoop_shape (show m + 1 ≤ 11 by omega) hb
          refine clampDate_lt_of_monthIdx_lt y m hs.1 hs.2.1 ?_
          have := hs.2.2.2.2
          omega
    split
    · split
      · simp
      · refine List.pairwise_append.mpr ⟨?_, hnext, ?_⟩
        · split <;> simp
        · intro a ha b hb
          have ha' : a = clampDate dom y m := by
            split at ha <;> simp at ha
            exact ha
          subst ha'
          exact hcross b hb
    · exact hnext

theorem monthLoop_mem {check : Nat → Bool} {dom : Nat} {s e : Date} (d : Date) :
    ∀ {fuel y m : Nat}, m ≤ 11 → 12 * (e.year + 2) ≤ 12 * y + m + fuel →
    (d ∈ monthLoop check dom s e fuel y m ↔
      (12 * y + m ≤ 12 * d.year + (d.month - 1) ∧ 1 ≤ d.month ∧ d.month ≤ 12 ∧
        check (d.month - 1) = true ∧
        d.day = min dom (daysInMonth d.year (d.month - 1)) ∧ s ≤ d ∧ d ≤ e)) := by
  intro fuel
  induction fuel with
  | zero =>
    intro y m hm hfuel
    simp only [monthLoop, List.not_mem_nil, false_iff]
    intro ⟨hidx, h1, h2, _, _, _, hde⟩
    exact not_le_of_monthIdx_far h2 (by omega) hde
  | succ n ih =>
    intro y m hm hfuel
    rw [monthLoop_succ]
    have hrec : d ∈ monthNext check dom s e n y m ↔
        (12 * y + m + 1 ≤ 12 * d.year + (d.month - 1) ∧ 1 ≤ d.month ∧ d.month ≤ 12 ∧
          check (d.month - 1) = true ∧
          d.day = min dom (daysInMonth d.year (d.month - 1)) ∧ s ≤ d ∧ d ≤ e) := by
      unfold monthNext
      by_cases hwrap : m + 1 > 11
      · simp only [if_pos hwrap]
        split <;> rename_i hsafety
        · simp only [List.not_mem_nil, false_iff]
          intro ⟨hidx, h1, h2, _, _, _, hde⟩
          exact not_le_of_monthIdx_far h2 (by omega) hde
        · rw [@ih (y + 1) 0 (by omega) (by omega)]
          constructor
          · intro ⟨hidx, hr⟩; exact ⟨by omega, hr⟩
          · intro ⟨hidx, hr⟩; exact ⟨by omega, hr⟩
      · simp only [if_neg hwrap]
        split <;> rename_i hsafety
        · simp only [List.not_mem_nil, false_iff]
          intro ⟨hidx, h1, h2, _, _, _, hde⟩
          exact not_le_of_monthIdx_far h2 (by omega) hde
        · rw [@ih y (m + 1) (by omega) (by omega)]
          constructor
          · intro ⟨hidx, hr⟩; exact ⟨by omega, hr⟩
          · intro ⟨hidx, hr⟩; exact ⟨by omega, hr⟩
    split <;> rename_i hcheck
    · split <;> rename_i hbreak
      · simp only [List.not_mem_nil, false_iff]
        intro ⟨hidx, h1, h2, hchk, hday, hsd, hde⟩
        rcases Nat.eq_or_lt_of_le hidx with he | hlt
        · have := eq_clampDate_of_monthIdx_eq y m hm h1 h2 hday he
          subst this
          exact Date.not_le_of_lt hbreak hde
        · have hcd := @clampDate_lt_of_monthIdx_lt dom d y m h1 h2 hlt
          exact Date.not_le_of_lt (Date.lt_of_lt_of_le hbreak (Date.le_of_lt hcd)) hde
      · rw [List.mem_append, hrec]
        have hce : clampDate dom y m ≤ e := Date.le_of_not_lt hbreak
        constructor
        · intro h
          rcases h with h1 | h1
          · have hdc : d = clampDate dom y m ∧ s ≤ clampDate dom y m := by
              split at h1 <;> rename_i hs
              · exact ⟨by simpa using h1, hs⟩
              · simp at h1
            obtain ⟨hdc, hsc⟩ := hdc
            subst hdc
            refine ⟨?_, ?_, ?_, ?_, ?_, hsc, hce⟩
            · simp only [clampDate_year, clampDate_month]; omega
            · simp only [clampDate_month]; omega
            · simp only [clampDate_month]; omega
            · simp only [clampDate_month]
              have hred : m + 1 - 1 = m := by omega
              rw [hred]; exact hcheck
            · simp only [clampDate_day, clampDate_year, clampDate_month]
              have hred : m + 1 - 1 = m := by omega
              rw [hred]
          · obtain ⟨hidx, hr⟩ := h1
            exact ⟨by omega, hr⟩
        · intro ⟨hidx, h1, h2, hchk, hday, hsd, hde⟩
          rcases Nat.eq_or_lt_of_le hidx with he | hlt
          · have hdc := eq_clampDate_of_monthIdx_eq y m hm h1 h2 hday he
            left
            rw [if_pos (by rw [← hdc]; exact hsd)]
            simp [hdc]
          · right
            exact ⟨by omega, h1, h2, hchk, hday, hsd, hde⟩
    · rw [hrec]
      constructor
      · intro ⟨hidx, hr⟩
        exact ⟨by omega, hr⟩
      · intro ⟨hidx, h1, h2, hchk, hday, hsd, hde⟩
        rcases Nat.eq_or_lt_of_le hidx with he | hlt
        · exfalso
          have hdc := eq_clampDate_of_monthIdx_eq y m hm h1 h2 hday he
          rw [hdc] at hchk
          simp only [clampDate_month] at hchk
          have hred : m + 1 - 1 = m := by omega
          rw [hred] at hchk
          simp [hchk] at hcheck
        · exact ⟨by omega, h1, h2, hchk, hday, hsd, hde⟩

/-! The task data model (`src/types.ts`), restricted to the fields read by the
recurrence engine and the weekly scheduler.  UI-only fields (description,
roomType, priority, isDue, isCompleted, lastCompleted) are omitted. -/

inductive Frequency where
  | Daily
  | Weekly
  | BiWeekly
  | Monthly
  | Quarterly
deriving DecidableEq, Repr

structure Task where
  id : String
  room : String
  frequency : Frequency
  estimatedMinutes : Nat
  nextDueDate : Date
  scheduledDay : Option Nat
  anchorDate : Option Date
deriving DecidableEq, Repr

/-- Source `Math.round(diffDays(anchor, current) / 7)`:  `Math.round(x)` is
`floor(x + 1/2)`, so for an integer day difference `n` the rounded week count
is `floor((2n + 7) / 14)`. -/
def weeksDiffRound (n : Int) : Int :=
  Int.fdiv (2 * n + 7) 14

/-- The BiWeekly "on week" test from the source:
`((weeksDiff % 2) + 2) % 2 === 0`, where JavaScript `%` is truncating
(`Int.tmod`). -/
def biweeklyOn (anchor current : Date) : Bool :=
  ((weeksDiffRound (diffDays anchor current)).tmod 2 + 2).tmod 2 == 0

/-- Source `getTaskOccurrences(task, startDate, endDate)`
(`src/utils/migration.ts`): all dates in `[startDate, endDate]` on which the
task occurs. -/
def getTaskOccurrences (task : Task) (startDate endDate : Date) : List Date :=
  match task.frequency with
  | Frequency.Daily =>
    occLoop (fun _ => true) (rangeFuel startDate endDate) startDate endDate
  | Frequency.Weekly =>
    let targetDay := task.scheduledDay.getD (dayOfWeek task.nextDueDate)
    occLoop (fun current => dayOfWeek current == targetDay)
      (rangeFuel startDate endDate) startDate endDate
  | Frequency.BiWeekly =>
    let targetDay := task.scheduledDay.getD (dayOfWeek task.nextDueDate)
    let anchor := task.anchorDate.getD task.nextDueDate
    occLoop (fun current => dayOfWeek current == targetDay && biweeklyOn anchor current)
      (rangeFuel startDate endDate) startDate endDate
  | Frequency.Monthly =>
    let targetDom := task.scheduledDay.getD (dayOfMonth task.nextDueDate)
    monthLoop (fun _ => true) targetDom startDate endDate
      (monthFuel startDate endDate) startDate.year (startDate.month - 1)
  | Frequency.Quarterly =>
    let targetDom := task.scheduledDay.getD (dayOfMonth task.nextDueDate)
    let anchor := task.anchorDate.getD task.nextDueDate
    let anchorMonth := anchor.month - 1
    monthLoop (fun month => (month + 12 - anchorMonth) % 12 % 3 == 0) targetDom
      startDate endDate (monthFuel startDate endDate) startDate.year (startDate.month - 1)

/-- Source `isTaskDueOnDate(task, date)`. -/
def isTaskDueOnDate (task : Task) (date : Date) : Bool :=
  0 < (getTaskOccurrences task date date).length

/-- Source `getNextOccurrence(task, onOrAfterDate)`: next occurrence on or
after the given date, searching up to 366 days ahead. -/
def getNextOccurrence (task : Task) (onOrAfterDate : Date) : Date :=
  if task.frequency = Frequency.Daily then onOrAfterDate
  else
    let endDate := addDays onOrAfterDate 366
    let occurrences := getTaskOccurrences task onOrAfterDate endDate
    if 0 < occurrences.length then occurrences.headD onOrAfterDate else onOrAfterDate

/-! Helper facts about `getTaskOccurrences`, shared by the claim theorems. -/

theorem monthFuel_spec (s e : Date) :
    12 * (e.year + 2) ≤ 12 * s.year + (s.month - 1) + monthFuel s e := by
  unfold monthFuel; omega

theorem getTaskOccurrences_in_range (task : Task) (s e : Date) :
    ∀ d ∈ getTaskOccurrences task s e, s ≤ d ∧ d ≤ e := by
  intro d hd
  unfold getTaskOccurrences at hd
  cases hfreq : task.frequency <;> rw [hfreq] at hd
  · exact ⟨(occLoop_sound hd).1, (occLoop_sound hd).2.1⟩
  · exact ⟨(occLoop_sound hd).1, (occLoop_sound hd).2.1⟩
  · exact ⟨(occLoop_sound hd).1, (occLoop_sound hd).2.1⟩
  · exact monthLoop_sound hd
  · exact monthLoop_sound hd

theorem getTaskOccurrences_pairwise (task : Task) (s e : Date) (hs : s.Valid) :
    (getTaskOccurrences task s e).Pairwise Date.lt := by
  obtain ⟨hm1, hm2, _, _⟩ := hs
  unfold getTaskOccurrences
  cases hfreq : task.frequency
  · exact occLoop_pairwise _ _ _ _
  · exact occLoop_pairwise _ _ _ _
  · exact occLoop_pairwise _ _ _ _
  · exact monthLoop_pairwise _ _ _ _ _ _ _ (by omega)
  · exact monthLoop_pairwise _ _ _ _ _ _ _ (by omega)

/-- Membership characterization of the Monthly / Quarterly month walk as
started by `getTaskOccurrences` (the walk starts at the month of `startDate`). -/
theorem monthWalk_mem (check : Nat → Bool) (dom : Nat) {s : Date} (e : Date)
    (hs : s.Valid) (d : Date) :
    d ∈ monthLoop check dom s e (monthFuel s e) s.year (s.month - 1) ↔
      (1 ≤ d.month ∧ d.month ≤ 12 ∧ check (d.month - 1) = true ∧
        d.day = min dom (daysInMonth d.year (d.month - 1)) ∧ s ≤ d ∧ d ≤ e) := by
  obtain ⟨hm1, hm2, _, _⟩ := hs
  rw [monthLoop_mem d (by omega) (monthFuel_spec s e)]
  constructor
  · intro ⟨_, hr⟩; exact hr
  · intro ⟨h1, h2, hchk, hday, hsd, hde⟩
    refine ⟨?_, h1, h2, hchk, hday, hsd, hde⟩
    rw [Date.le_def] at hsd
    omega

/-! Concrete tasks used by the spec's worked examples. -/

/-- BiWeekly task of the spec's alternation example: scheduledDay 1 (Monday),
anchorDate 2024-01-01 (a Monday). -/
def biweeklyExampleTask : Task :=
  ⟨"biweekly-example", "room", Frequency.BiWeekly, 10, ⟨2024, 1, 1⟩, some 1,
    some ⟨2024, 1, 1⟩⟩

/-- BiWeekly task anchored at 2024-01-15: dates before the anchor exercise the
negative week counts. -/
def biweeklyBeforeAnchorTask : Task :=
  ⟨"biweekly-before-anchor", "room", Frequency.BiWeekly, 10, ⟨2024, 1, 15⟩, some 1,
    some ⟨2024, 1, 15⟩⟩

/-- Monthly task with scheduledDay 31 of the spec's clamping example. -/
def monthly31Task : Task :=
  ⟨"monthly-31", "room", Frequency.Monthly, 10, ⟨2024, 1, 31⟩, some 31, none⟩

/-- Quarterly task with scheduledDay 15 anchored at 2024-01-15 of the spec's
cycle example. -/
def quarterlyExampleTask : Task :=
  ⟨"quarterly-example", "room", Frequency.Quarterly, 10, ⟨2024, 1, 15⟩, some 15,
    some ⟨2024, 1, 15⟩⟩

/-- C1: for a BiWeekly task with scheduledDay and anchorDate set,
`getTaskOccurrences` returns exactly the in-range dates whose day-of-week
equals scheduledDay and whose rounded whole-week distance from the anchor is
even under the non-negative-safe modulo; in particular, with scheduledDay 1
and anchor 2024-01-01 the occurrences over 2024-01-01..2024-01-28 are exactly
2024-01-01 and 2024-01-15 (2024-01-08 and 2024-01-22 excluded), and with
anchor 2024-01-15 the date one week before the anchor (2024-01-08) is excluded
while two weeks before (2024-01-01) is included. -/
theorem biweekly_occurrence_rule (task : Task) (w : Nat) (a : Date)
    (hf : task.frequency = Frequency.BiWeekly)
    (hw : task.scheduledDay = some w)
    (ha : task.anchorDate = some a)
    (s e : Date) (hs : s.Valid) :
    (∀ d : Date, d ∈ getTaskOccurrences task s e ↔
      (d.Valid ∧ s ≤ d ∧ d ≤ e ∧ dayOfWeek d = w ∧ biweeklyOn a d = true)) ∧
    getTaskOccurrences biweeklyExampleTask ⟨2024, 1, 1⟩ ⟨2024, 1, 28⟩
      = [⟨2024, 1, 1⟩, ⟨2024, 1, 15⟩] ∧
    getTaskOccurrences biweeklyBeforeAnchorTask ⟨2024, 1, 1⟩ ⟨2024, 1, 14⟩
      = [⟨2024, 1, 1⟩] := by
  refine ⟨?_, by decide, by decide⟩
  intro d
  simp only [getTaskOccurrences, hf, hw, ha, Option.getD_some]
  rw [occLoop_mem d hs (rangeFuel_spec s e)]
  simp [Bool.and_eq_true, beq_iff_eq, and_assoc]

theorem biweekly_occurrence_rule_witness :
    (⟨2024, 1, 15⟩ : Date) ∈
      getTaskOccurrences biweeklyExampleTask ⟨2024, 1, 1⟩ ⟨2024, 1, 28⟩ := by
  have h := biweekly_occurrence_rule biweeklyExampleTask 1 ⟨2024, 1, 1⟩ rfl rfl rfl
    ⟨2024, 1, 1⟩ ⟨2024, 1, 28⟩ (by decide)
  exact (h.1 ⟨2024, 1, 15⟩).mpr (by decide)

/-- C4: for a Monthly task with scheduledDay in 1..31, `getTaskOccurrences`
yields, per calendar month, exactly the date with day-of-month
`min(scheduledDay, daysInThatMonth)` when it lies inside the range (short
months clamp down, never skip or roll over); in particular scheduledDay 31
yields 2024-02-29 for February 2024 and 2024-04-30 for April 2024. -/
theorem monthly_clamping_rule (task : Task) (dom : Nat)
    (hf : task.frequency = Frequency.Monthly)
    (hdom : task.scheduledDay = some dom)
    (hdom1 : 1 ≤ dom) (hdom2 : dom ≤ 31)
    (s e : Date) (hs : s.Valid) :
    (∀ d : Date, d ∈ getTaskOccurrences task s e ↔
      (1 ≤ d.month ∧ d.month ≤ 12 ∧
        d.day = min dom (daysInMonth d.year (d.month - 1)) ∧ s ≤ d ∧ d ≤ e)) ∧
    getTaskOccurrences monthly31Task ⟨2024, 2, 1⟩ ⟨2024, 2, 29⟩ = [⟨2024, 2, 29⟩] ∧
    getTaskOccurrences monthly31Task ⟨2024, 4, 1⟩ ⟨2024, 4, 30⟩ = [⟨2024, 4, 30⟩] := by
  refine ⟨?_, by decide, by decide⟩
  intro d
  simp only [getTaskOccurrences, hf, hdom, Option.getD_some]
  rw [monthWalk_mem _ _ _ hs d]
  simp

theorem monthly_clamping_rule_witness :
    (⟨2024, 2, 29⟩ : Date) ∈
      getTaskOccurrences monthly31Task ⟨2024, 2, 1⟩ ⟨2024, 2, 29⟩ := by
  have h := monthly_clamping_rule monthly31Task 31 rfl rfl (by omega) (by omega)
    ⟨2024, 2, 1⟩ ⟨2024, 2, 29⟩ (by decide)
  exact (h.1 ⟨2024, 2, 29⟩).mpr (by decide)

/-- C5: for a Quarterly task with scheduledDay and anchorDate set,
`getTaskOccurrences` applies the Monthly clamping rule but only in months
whose 0-based offset from the anchor's month is a multiple of 3 (mod 12); in
particular scheduledDay 15 anchored 2024-01-15 occurs over 2024 exactly on the
15th of January, April, July and October (never February or March). -/
theorem quarterly_cycle_rule (task : Task) (dom : Nat) (a : Date)
    (hf : task.frequency = Frequency.Quarterly)
    (hdom : task.scheduledDay = some dom)
    (ha : task.anchorDate = some a)
    (hav : a.Valid)
    (s e : Date) (hs : s.Valid) :
    (∀ d : Date, d ∈ getTaskOccurrences task s e ↔
      (1 ≤ d.month ∧ d.month ≤ 12 ∧
        ((d.month - 1) + 12 - (a.month - 1)) % 12 % 3 = 0 ∧
        d.day = min dom (daysInMonth d.year (d.month - 1)) ∧ s ≤ d ∧ d ≤ e)) ∧
    getTaskOccurrences quarterlyExampleTask ⟨2024, 1, 1⟩ ⟨2024, 12, 31⟩
      = [⟨2024, 1, 15⟩, ⟨2024, 4, 15⟩, ⟨2024, 7, 15⟩, ⟨2024, 10, 15⟩] := by
  refine ⟨?_, by decide⟩
  intro d
  simp only [getTaskOccurrences, hf, hdom, ha, Option.getD_some]
  rw [monthWalk_mem _ _ _ hs d]
  simp [beq_iff_eq]

theorem quarterly_cycle_rule_witness :
    (⟨2024, 4, 15⟩ : Date) ∈
      getTaskOccurrences quarterlyExampleTask ⟨2024, 1, 1⟩ ⟨2024, 12, 31⟩ := by
  have h := quarterly_cycle_rule quarterlyExampleTask 15 ⟨2024, 1, 15⟩ rfl rfl rfl
    (by decide) ⟨2024, 1, 1⟩ ⟨2024, 12, 31⟩ (by decide)
  exact (h.1 ⟨2024, 4, 15⟩).mpr (by decide)

/-- C10: for every task of any of the five frequencies, an inverted range
(start strictly after end) produces no occurrences. -/
theorem occurrences_empty_on_inverted_range (task : Task) (s e : Date)
    (h : e < s) : getTaskOccurrences task s e = [] := by
  rcases hocc : getTaskOccurrences task s e with _ | ⟨d, rest⟩
  · rfl
  · exfalso
    have hm := getTaskOccurrences_in_range task s e d
      (by rw [hocc]; exact List.mem_cons_self d rest)
    exact Date.not_le_of_lt h (Date.le_trans hm.1 hm.2)

theorem occurrences_empty_on_inverted_range_witness :
    getTaskOccurrences quarterlyExampleTask ⟨2024, 1, 2⟩ ⟨2024, 1, 1⟩ = [] :=
  occurrences_empty_on_inverted_range quarterlyExampleTask ⟨2024, 1, 2⟩ ⟨2024, 1, 1⟩
    (by decide)

theorem getTaskOccurrences_mono_end (task : Task) {s e eBig : Date} (hs : s.Valid)
    (hee : e ≤ eBig) :
    ∀ d ∈ getTaskOccurrences task s e, d ∈ getTaskOccurrences task s eBig := by
  intro d hd
  unfold getTaskOccurrences at hd ⊢
  cases hfreq : task.frequency <;> rw [hfreq] at hd
  · rw [occLoop_mem d hs (rangeFuel_spec s e)] at hd
    rw [occLoop_mem d hs (rangeFuel_spec s eBig)]
    exact ⟨hd.1, hd.2.1, Date.le_trans hd.2.2.1 hee, hd.2.2.2⟩
  · rw [occLoop_mem d hs (rangeFuel_spec s e)] at hd
    rw [occLoop_mem d hs (rangeFuel_spec s eBig)]
    exact ⟨hd.1, hd.2.1, Date.le_trans hd.2.2.1 hee, hd.2.2.2⟩
  · rw [occLoop_mem d hs (rangeFuel_spec s e)] at hd
    rw [occLoop_mem d hs (rangeFuel_spec s eBig)]
    exact ⟨hd.1, hd.2.1, Date.le_trans hd.2.2.1 hee, hd.2.2.2⟩
  · rw [monthWalk_mem _ _ e hs d] at hd
    rw [monthWalk_mem _ _ eBig hs d]
    exact ⟨hd.1, hd.2.1, hd.2.2.1, hd.2.2.2.1, hd.2.2.2.2.1,
      Date.le_trans hd.2.2.2.2.2 hee⟩
  · rw [monthWalk_mem _ _ e hs d] at hd
    rw [monthWalk_mem _ _ eBig hs d]
    exact ⟨hd.1, hd.2.1, hd.2.2.1, hd.2.2.2.1, hd.2.2.2.2.1,
      Date.le_trans hd.2.2.2.2.2 hee⟩

/-- C2: for every task and valid dates s ≤ e, `getTaskOccurrences` is a
strictly increasing, duplicate-free list of dates inside [s, e], and extending
the end of the range only adds occurrences (subset monotonicity). -/
theorem occurrences_sorted_in_range_monotone (task : Task) (s e eBig : Date)
    (hs : s.Valid) (he : e.Valid) (heB : eBig.Valid)
    (hse : s ≤ e) (hlt : e < eBig) :
    (getTaskOccurrences task s e).Pairwise Date.lt ∧
    (getTaskOccurrences task s e).Nodup ∧
    (∀ d ∈ getTaskOccurrences task s e, s ≤ d ∧ d ≤ e) ∧
    (∀ d ∈ getTaskOccurrences task s e, d ∈ getTaskOccurrences task s eBig) := by
  refine ⟨getTaskOccurrences_pairwise task s e hs, ?_,
    getTaskOccurrences_in_range task s e,
    getTaskOccurrences_mono_end task hs (Date.le_of_lt hlt)⟩
  exact List.Pairwise.imp (fun h => Date.ne_of_lt h)
    (getTaskOccurrences_pairwise task s e hs)

theorem occurrences_sorted_in_range_monotone_witness :
    (getTaskOccurrences biweeklyExampleTask ⟨2024, 1, 1⟩ ⟨2024, 1, 28⟩).Nodup := by
  have h := occurrences_sorted_in_range_monotone biweeklyExampleTask
    ⟨2024, 1, 1⟩ ⟨2024, 1, 28⟩ ⟨2024, 2, 4⟩
    (by decide) (by decide) (by decide) (by decide) (by decide)
  exact h.2.1

/-- C3: `getNextOccurrence` returns the first element of the occurrences over
the 366-day search window when that list is non-empty, the query date itself
otherwise; the result is on or after the query date and is at most every
occurrence in the window (it is the earliest). -/
theorem next_occurrence_spec (task : Task) (d : Date) (hd : d.Valid) :
    getNextOccurrence task d = (getTaskOccurrences task d (addDays d 366)).headD d ∧
    d ≤ getNextOccurrence task d ∧
    ∀ x ∈ getTaskOccurrences task d (addDays d 366), getNextOccurrence task d ≤ x := by
  have hEv : (addDays d 366).Valid := addDays_valid hd 366
  have htE : toDays (addDays d 366) = toDays d + 366 := toDays_addDays hd 366
  have hdE : d ≤ addDays d 366 := (toDays_le_iff hd hEv).mp (by omega)
  by_cases hf : task.frequency = Frequency.Daily
  · have hres : getNextOccurrence task d = d := by
      simp [getNextOccurrence, if_pos hf]
    have hfuel : rangeFuel d (addDays d 366) = 366 + 1 := by
      unfold rangeFuel; omega
    have hshape : getTaskOccurrences task d (addDays d 366)
        = d :: occLoop (fun _ => true) 366 (nextDay d) (addDays d 366) := by
      simp only [getTaskOccurrences, hf, hfuel]
      rw [occLoop, if_pos hdE]
      simp
    refine ⟨?_, ?_, ?_⟩
    · rw [hres, hshape]
      simp
    · rw [hres]
      exact Date.le_refl d
    · intro x hx
      rw [hres]
      exact (getTaskOccurrences_in_range task d (addDays d 366) x hx).1
  · rcases hocc : getTaskOccurrences task d (addDays d 366) with _ | ⟨x, rest⟩
    · have hres : getNextOccurrence task d = d := by
        simp [getNextOccurrence, if_neg hf, hocc]
      rw [hres]
      refine ⟨by simp, Date.le_refl d, by simp⟩
    · have hres : getNextOccurrence task d = x := by
        simp [getNextOccurrence, if_neg hf, hocc]
      refine ⟨?_, ?_, ?_⟩
      · rw [hres]
        simp
      · rw [hres]
        exact (getTaskOccurrences_in_range task d (addDays d 366) x
          (by rw [hocc]; exact List.mem_cons_self x rest)).1
      · intro y hy
        rw [hres]
        have hp := getTaskOccurrences_pairwise task d (addDays d 366) hd
        rw [hocc] at hp
        rcases List.mem_cons.mp hy with he | htail
        · subst he; exact Date.le_refl _
        · exact Date.le_of_lt ((List.pairwise_cons.mp hp).1 y htail)

theorem next_occurrence_spec_witness :
    Date.Valid ⟨2024, 1, 4⟩ ∧
      ⟨2024, 1, 4⟩ ≤ getNextOccurrence biweeklyExampleTask ⟨2024, 1, 4⟩ :=
  ⟨by decide, (next_occurrence_spec biweeklyExampleTask ⟨2024, 1, 4⟩ (by decide)).2.1⟩

/-! The weekly scheduler (`src/utils/scheduler.ts`).

`optimizeWeeklySchedule` groups Weekly/BiWeekly tasks by room in a JavaScript
`Map` (insertion order; modelled by an association list), sorts the room
groups by total minutes descending with the stable `Array.sort`, and greedily
assigns each group to the day of minimum running load.  `availableDays[0]` on
an empty array is `undefined` in JavaScript, so the assigned day is modelled
as an `Option Nat` (`none` = `undefined`); likewise the `dayLoads` map keys. -/

structure ScheduleAssignment where
  taskId : String
  scheduledDay : Option Nat
deriving DecidableEq, Repr

/-- One step of building the source's `roomGroups` map: append the task to
its room's bucket, creating the bucket at the end on first sight (JS `Map`
insertion order). -/
def insertTask (groups : List (String × List Task)) (room : String) (t : Task) :
    List (String × List Task) :=
  match groups with
  | [] => [(room, [t])]
  | (r, ts) :: rest =>
    if r == room then (r, ts ++ [t]) :: rest else (r, ts) :: insertTask rest room t

/-- The source's step 1: filter to Weekly and BiWeekly tasks. -/
def weeklyFilter (tasks : List Task) : List Task :=
  tasks.filter fun t =>
    t.frequency == Frequency.Weekly || t.frequency == Frequency.BiWeekly

/-- The source's step 2: group tasks by room (JS `Map<string, Task[]>`). -/
def groupByRoom (tasks : List Task) : List (String × List Task) :=
  tasks.foldl (fun groups t => insertTask groups t.room t) []

structure RoomEntry where
  room : String
  tasks : List Task
  totalMinutes : Nat
deriving Repr

/-- The source's step 3: each room with its tasks and total estimated minutes. -/
def roomEntriesOf (tasks : List Task) : List RoomEntry :=
  (groupByRoom (weeklyFilter tasks)).map fun g =>
    ⟨g.1, g.2, g.2.foldl (fun sum t => sum + t.estimatedMinutes) 0⟩

/-- The comparator `(a, b) => b.totalMinutes - a.totalMinutes` orders entries
by total minutes descending. -/
def entryGE (a b : RoomEntry) : Prop :=
  b.totalMinutes ≤ a.totalMinutes

instance : DecidableRel entryGE := fun a b => Nat.decLe _ _

/-- The source's `roomEntries.sort(...)`: ECMAScript `Array.sort` is stable,
and insertion sort realizes the unique stable descending sort. -/
def sortedEntriesOf (tasks : List Task) : List RoomEntry :=
  (roomEntriesOf tasks).insertionSort entryGE

/-- JS `dayLoads.set(k, v)`: update in place, append a new key at the end. -/
def setLoad (m : List (Option Nat × Nat)) (k : Option Nat) (v : Nat) :
    List (Option Nat × Nat) :=
  match m with
  | [] => [(k, v)]
  | (k2, v2) :: rest =>
    if k2 == k then (k2, v) :: rest else (k2, v2) :: setLoad rest k v

/-- JS `dayLoads.get(k)` (`undefined` when absent). -/
def getLoad (m : List (Option Nat × Nat)) (k : Option Nat) : Option Nat :=
  match m.find? (fun p => p.1 == k) with
  | some p => some p.2
  | none => none

/-- The source's step 4: a zero running load per available day. -/
def initLoads (availableDays : List Nat) : List (Option Nat × Nat) :=
  availableDays.foldl (fun m day => setLoad m (some day) 0) []

/-- The source's minimum-load scan:
`minDay = availableDays[0]; minLoad = Infinity; for ([day, load] of dayLoads) if (load < minLoad) ...`.
The accumulated `minLoad` is `none` while still `Infinity`. -/
def findMinDay (availableDays : List Nat) (dayLoads : List (Option Nat × Nat)) :
    Option Nat :=
  (dayLoads.foldl
    (fun acc entry =>
      match acc.2 with
      | none => (entry.1, some entry.2)
      | some m => if entry.2 < m then (entry.1, some entry.2) else acc)
    (availableDays.head?, (none : Option Nat))).1

/-- The source's step 5 loop: assign every task of each entry to the current
minimum day, then add the entry's total to that day's load. -/
def greedyAssign (availableDays : List Nat) :
    List RoomEntry → List (Option Nat × Nat) → List ScheduleAssignment
  | [], _ => []
  | entry :: rest, dayLoads =>
    let minDay := findMinDay availableDays dayLoads
    (entry.tasks.map fun t => ⟨t.id, minDay⟩)
      ++ greedyAssign availableDays rest
        (setLoad dayLoads minDay ((getLoad dayLoads minDay).getD 0 + entry.totalMinutes))

/-- Source `optimizeWeeklySchedule(tasks, availableDays)`. -/
def optimizeWeeklySchedule (tasks : List Task) (availableDays : List Nat) :
    List ScheduleAssignment :=
  if weeklyFilter tasks = [] then []
  else greedyAssign availableDays (sortedEntriesOf tasks) (initLoads availableDays)

/-- The running day loads after processing a prefix of the sorted entries
(the state the source threads through its step 5 loop). -/
def loadsAfter (availableDays : List Nat) (entries : List RoomEntry)
    (loads : List (Option Nat × Nat)) : List (Option Nat × Nat) :=
  entries.foldl
    (fun loads entry =>
      let minDay := findMinDay availableDays loads
      setLoad loads minDay ((getLoad loads minDay).getD 0 + entry.totalMinutes))
    loads

/-! Concrete tasks of the spec's end-to-end scheduling example: Kitchen 40
total minutes (two tasks), Bathroom 25, Office 10, all Weekly. -/

def kitchenTask1 : Task :=
  ⟨"kitchen-1", "Kitchen", Frequency.Weekly, 25, ⟨2024, 1, 1⟩, none, none⟩

def kitchenTask2 : Task :=
  ⟨"kitchen-2", "Kitchen", Frequency.Weekly, 15, ⟨2024, 1, 1⟩, none, none⟩

def bathroomTask : Task :=
  ⟨"bathroom-1", "Bathroom", Frequency.Weekly, 25, ⟨2024, 1, 1⟩, none, none⟩

def officeTask : Task :=
  ⟨"office-1", "Office", Frequency.Weekly, 10, ⟨2024, 1, 1⟩, none, none⟩

def endToEndTasks : List Task :=
  [kitchenTask1, kitchenTask2, bathroomTask, officeTask]

/-! Scheduler lemmas. -/

/-- All tasks stored in the room-group buckets, in bucket order. -/
def roomTasksOf (groups : List (String × List Task)) : List Task :=
  (groups.map Prod.snd).flatten

theorem insertTask_tasks_perm (groups : List (String × List Task)) (room : String)
    (t : Task) :
    (roomTasksOf (insertTask groups room t)).Perm (roomTasksOf groups ++ [t]) := by
  induction groups with
  | nil => simp [insertTask, roomTasksOf]
  | cons g rest ih =>
    obtain ⟨r, ts⟩ := g
    unfold insertTask
    by_cases h : r == room
    · rw [if_pos h]
      simp only [roomTasksOf, List.map_cons, List.flatten_cons]
      have hc : ([t] ++ (rest.map Prod.snd).flatten).Perm
          ((rest.map Prod.snd).flatten ++ [t]) := List.perm_append_comm
      have := hc.append_left ts
      simpa [List.append_assoc] using this
    · rw [if_neg h]
      simp only [roomTasksOf, List.map_cons, List.flatten_cons]
      have := ih.append_left ts
      simpa [List.append_assoc] using this

theorem groupByRoom_tasks_perm (l : List Task) :
    (roomTasksOf (groupByRoom l)).Perm l := by
  suffices h : ∀ (gs : List (String × List Task)),
      (roomTasksOf (l.foldl (fun groups t => insertTask groups t.room t) gs)).Perm
        (roomTasksOf gs ++ l) by
    simpa [roomTasksOf] using h []
  induction l with
  | nil => intro gs; simp
  | cons t l ih =>
    intro gs
    have h1 := ih (insertTask gs t.room t)
    have h2 := (insertTask_tasks_perm gs t.room t).append_right l
    have h3 := h1.trans h2
    simpa [List.append_assoc] using h3

/-- Invariant carried through the grouping fold: every bucketed task satisfies
`P` at its bucket's key. -/
theorem insertTask_inv (P : Task → String → Prop)
    {groups : List (String × List Task)} {room : String} {t : Task}
    (hg : ∀ q ∈ groups, ∀ v ∈ q.2, P v q.1) (ht : P t room) :
    ∀ q ∈ insertTask groups room t, ∀ v ∈ q.2, P v q.1 := by
  induction groups with
  | nil =>
    intro q hq v hv
    simp [insertTask] at hq
    subst hq
    simp at hv
    subst hv
    exact ht
  | cons g rest ih =>
    obtain ⟨r, ts⟩ := g
    intro q hq v hv
    unfold insertTask at hq
    by_cases h : r == room
    · rw [if_pos h] at hq
      rcases List.mem_cons.mp hq with he | hrest
      · subst he
        rcases List.mem_append.mp hv with h1 | h1
        · exact hg (r, ts) (List.mem_cons_self _ _) v h1
        · have : v = t := by simpa using h1
          subst this
          have : r = room := by simpa using h
          rw [this]
          exact ht
      · exact hg q (List.mem_cons_of_mem _ hrest) v hv
    · rw [if_neg h] at hq
      rcases List.mem_cons.mp hq with he | hrest
      · subst he
        exact hg (r, ts) (List.mem_cons_self _ _) v hv
      · exact ih (fun q hq => hg q (List.mem_cons_of_mem _ hq)) q hrest v hv

theorem groupByRoom_inv (l : List Task) :
    ∀ q ∈ groupByRoom l, ∀ v ∈ q.2, v.room = q.1 ∧ v ∈ l := by
  suffices h : ∀ (l' : List Task) (gs : List (String × List Task)),
      (∀ u ∈ l', u ∈ l) → (∀ q ∈ gs, ∀ v ∈ q.2, v.room = q.1 ∧ v ∈ l) →
      ∀ q ∈ l'.foldl (fun groups t => insertTask groups t.room t) gs,
        ∀ v ∈ q.2, v.room = q.1 ∧ v ∈ l by
    exact h l [] (fun u hu => hu) (by simp)
  intro l'
  induction l' with
  | nil => intro gs _ hg; exact hg
  | cons t l' ih =>
    intro gs hsub hg
    exact ih (insertTask gs t.room t) (fun u hu => hsub u (List.mem_cons_of_mem _ hu))
      (insertTask_inv (fun v r => v.room = r ∧ v ∈ l) hg
        ⟨rfl, hsub t (List.mem_cons_self _ _)⟩)

theorem insertTask_keys_sub {groups : List (String × List Task)} {room : String}
    {t : Task} :
    ∀ k ∈ (insertTask groups room t).map Prod.fst,
      k ∈ groups.map Prod.fst ∨ k = room := by
  induction groups with
  | nil => intro k hk; simp [insertTask] at hk; simp [hk]
  | cons g rest ih =>
    obtain ⟨r, ts⟩ := g
    intro k hk
    unfold insertTask at hk
    by_cases h : r == room
    · rw [if_pos h] at hk
      simp only [List.map_cons] at hk ⊢
      exact Or.inl hk
    · rw [if_neg h] at hk
      simp only [List.map_cons, List.mem_cons] at hk ⊢
      rcases hk with he | hk
      · exact Or.inl (Or.inl he)
      · rcases ih k hk with h1 | h1
        · exact Or.inl (Or.inr h1)
        · exact Or.inr h1

theorem insertTask_keys_nodup {groups : List (String × List Task)} {room : String}
    {t : Task} (h : (groups.map Prod.fst).Nodup) :
    ((insertTask groups room t).map Prod.fst).Nodup := by
  induction groups with
  | nil => simp [insertTask]
  | cons g rest ih =>
    obtain ⟨r, ts⟩ := g
    unfold insertTask
    simp only [List.map_cons, List.nodup_cons] at h
    by_cases hb : r == room
    · rw [if_pos hb]
      simp only [List.map_cons, List.nodup_cons]
      exact h
    · rw [if_neg hb]
      simp only [List.map_cons, List.nodup_cons]
      refine ⟨?_, ih h.2⟩
      intro hmem
      rcases insertTask_keys_sub r hmem with h1 | h1
      · exact h.1 h1
      · simp at hb
        exact hb h1

theorem groupByRoom_keys_nodup (l : List Task) :
    ((groupByRoom l).map Prod.fst).Nodup := by
  suffices h : ∀ (gs : List (String × List Task)), (gs.map Prod.fst).Nodup →
      ((l.foldl (fun groups t => insertTask groups t.room t) gs).map Prod.fst).Nodup by
    exact h [] (by simp)
  induction l with
  | nil => intro gs hg; exact hg
  | cons t l ih =>
    intro gs hg
    exact ih (insertTask gs t.room t) (insertTask_keys_nodup hg)

theorem loadsAfter_nil (days : List Nat) (loads : List (Option Nat × Nat)) :
    loadsAfter days [] loads = loads := rfl

theorem loadsAfter_cons (days : List Nat) (entry : RoomEntry) (rest : List RoomEntry)
    (loads : List (Option Nat × Nat)) :
    loadsAfter days (entry :: rest) loads =
      loadsAfter days rest
        (setLoad loads (findMinDay days loads)
          ((getLoad loads (findMinDay days loads)).getD 0 + entry.totalMinutes)) := rfl

/-- Every emitted assignment comes from one entry of the list, carries one of
that entry's task ids, and is assigned the minimum-load day of the running
loads after the preceding entries. -/
theorem greedyAssign_mem {days : List Nat} :
    ∀ {entries : List RoomEntry} {loads : List (Option Nat × Nat)}
      {a : ScheduleAssignment}, a ∈ greedyAssign days entries loads →
      ∃ p entry q, entries = p ++ entry :: q ∧ (∃ t ∈ entry.tasks, a.taskId = t.id) ∧
        a.scheduledDay = findMinDay days (loadsAfter days p loads) := by
  intro entries
  induction entries with
  | nil => intro loads a ha; simp [greedyAssign] at ha
  | cons entry rest ih =>
    intro loads a ha
    unfold greedyAssign at ha
    rcases List.mem_append.mp ha with h1 | h1
    · obtain ⟨t, ht, he⟩ := List.mem_map.mp h1
      refine ⟨[], entry, rest, by simp, ⟨t, ht, ?_⟩, ?_⟩
      · rw [← he]
      · rw [← he, loadsAfter_nil]
    · obtain ⟨p, e2, q, hdec, hid, hday⟩ := ih h1
      refine ⟨entry :: p, e2, q, by rw [hdec]; rfl, hid, ?_⟩
      rw [hday, loadsAfter_cons]

theorem setLoad_keys_sub {m : List (Option Nat × Nat)} {k : Option Nat} {v : Nat} :
    ∀ p ∈ setLoad m k v, p.1 = k ∨ ∃ q ∈ m, p.1 = q.1 := by
  induction m with
  | nil => intro p hp; simp [setLoad] at hp; simp [hp]
  | cons kv rest ih =>
    obtain ⟨k2, v2⟩ := kv
    intro p hp
    unfold setLoad at hp
    by_cases h : k2 == k
    · rw [if_pos h] at hp
      rcases List.mem_cons.mp hp with he | hrest
      · subst he
        right
        exact ⟨(k2, v2), List.mem_cons_self _ _, rfl⟩
      · right
        exact ⟨p, List.mem_cons_of_mem _ hrest, rfl⟩
    · rw [if_neg h] at hp
      rcases List.mem_cons.mp hp with he | hrest
      · subst he
        right
        exact ⟨(k2, v2), List.mem_cons_self _ _, rfl⟩
      · rcases ih p hrest with h1 | ⟨q, hq, h1⟩
        · exact Or.inl h1
        · exact Or.inr ⟨q, List.mem_cons_of_mem _ hq, h1⟩

theorem initLoads_keys (days : List Nat) :
    ∀ p ∈ initLoads days, ∃ d ∈ days, p.1 = some d := by
  suffices h : ∀ (l : List Nat) (m : List (Option Nat × Nat)),
      (∀ u ∈ l, u ∈ days) → (∀ p ∈ m, ∃ d ∈ days, p.1 = some d) →
      ∀ p ∈ l.foldl (fun m day => setLoad m (some day) 0) m,
        ∃ d ∈ days, p.1 = some d by
    exact h days [] (fun u hu => hu) (by simp)
  intro l
  induction l with
  | nil => intro m _ hm; exact hm
  | cons day l ih =>
    intro m hsub hm
    refine ih (setLoad m (some day) 0) (fun u hu => hsub u (List.mem_cons_of_mem _ hu)) ?_
    intro p hp
    rcases setLoad_keys_sub p hp with h1 | ⟨q, hq, h1⟩
    · exact ⟨day, hsub day (List.mem_cons_self _ _), h1⟩
    · obtain ⟨d, hd, he⟩ := hm q hq
      exact ⟨d, hd, by rw [h1, he]⟩

/-- When `availableDays` is non-empty and all load keys are genuine days, the
minimum-load scan yields a genuine day of `availableDays`. -/
theorem findMinDay_mem {days : List Nat} {loads : List (Option Nat × Nat)}
    (hne : days ≠ []) (hkeys : ∀ p ∈ loads, ∃ d ∈ days, p.1 = some d) :
    ∃ d ∈ days, findMinDay days loads = some d := by
  have hinit : ∃ d ∈ days, (days.head?, (none : Option Nat)).1 = some d := by
    cases days with
    | nil => exact absurd rfl hne
    | cons x l => exact ⟨x, List.mem_cons_self _ _, rfl⟩
  unfold findMinDay
  suffices h : ∀ (l : List (Option Nat × Nat)) (acc : Option Nat × Option Nat),
      (∀ p ∈ l, ∃ d ∈ days, p.1 = some d) → (∃ d ∈ days, acc.1 = some d) →
      ∃ d ∈ days,
        (l.foldl
          (fun acc entry =>
            match acc.2 with
            | none => (entry.1, some entry.2)
            | some m => if entry.2 < m then (entry.1, some entry.2) else acc)
          acc).1 = some d by
    exact h loads _ hkeys hinit
  intro l
  induction l with
  | nil => intro acc _ hacc; exact hacc
  | cons entry rest ih =>
    intro acc hl hacc
    refine ih _ (fun p hp => hl p (List.mem_cons_of_mem _ hp)) ?_
    rcases hm : acc.2 with _ | m
    · simp only [List.foldl_cons, hm]
      exact hl entry (List.mem_cons_self _ _)
    · simp only [List.foldl_cons, hm]
      split
      · exact hl entry (List.mem_cons_self _ _)
      · exact hacc

theorem loadsAfter_keys {days : List Nat} (hne : days ≠ []) :
    ∀ (entries : List RoomEntry) (loads : List (Option Nat × Nat)),
      (∀ p ∈ loads, ∃ d ∈ days, p.1 = some d) →
      ∀ p ∈ loadsAfter days entries loads, ∃ d ∈ days, p.1 = some d := by
  intro entries
  induction entries with
  | nil => intro loads h; exact h
  | cons entry rest ih =>
    intro loads h
    rw [loadsAfter_cons]
    refine ih _ ?_
    intro p hp
    rcases setLoad_keys_sub p hp with h1 | ⟨q, hq, h1⟩
    · obtain ⟨d, hd, he⟩ := findMinDay_mem hne h
      exact ⟨d, hd, by rw [h1, he]⟩
    · obtain ⟨d, hd, he⟩ := h q hq
      exact ⟨d, hd, by rw [h1, he]⟩

/-- In a list of entries with pairwise distinct rooms, a decomposition around
an entry of a given room is unique. -/
theorem entries_decomp_unique {l p1 q1 p2 q2 : List RoomEntry} {e1 e2 : RoomEntry}
    (hnd : (l.map fun e => e.room).Nodup) (h1 : l = p1 ++ e1 :: q1)
    (h2 : l = p2 ++ e2 :: q2) (hr : e1.room = e2.room) : p1 = p2 := by
  induction p1 generalizing l p2 with
  | nil =>
    cases p2 with
    | nil => rfl
    | cons x p2' =>
      exfalso
      subst h1
      simp only [List.nil_append, List.cons_append] at h2
      injection h2 with hx hq
      have he2 : e2 ∈ q1 := by
        rw [hq]
        exact List.mem_append_right _ (List.mem_cons_self _ _)
      have hmap : ((e1 :: q1).map fun e => e.room).Nodup := by simpa using hnd
      simp only [List.map_cons, List.nodup_cons] at hmap
      exact hmap.1 (hr ▸ List.mem_map_of_mem _ he2)
  | cons x p1' ih =>
    cases p2 with
    | nil =>
      exfalso
      subst h2
      simp only [List.nil_append, List.cons_append] at h1
      injection h1 with hx hq
      have he1 : e1 ∈ q2 := by
        rw [hq]
        exact List.mem_append_right _ (List.mem_cons_self _ _)
      have hmap : ((e2 :: q2).map fun e => e.room).Nodup := by simpa using hnd
      simp only [List.map_cons, List.nodup_cons] at hmap
      exact hmap.1 (hr ▸ List.mem_map_of_mem _ he1)
    | cons y p2' =>
      subst h1
      simp only [List.cons_append] at h2 hnd
      injection h2 with hxy htail
      subst hxy
      simp only [List.map_cons, List.nodup_cons] at hnd
      rw [ih hnd.2 rfl htail]

theorem sortedEntriesOf_perm (tasks : List Task) :
    (sortedEntriesOf tasks).Perm (roomEntriesOf tasks) :=
  List.perm_insertionSort entryGE (roomEntriesOf tasks)

theorem sortedEntriesOf_inv (tasks : List Task) :
    ∀ e ∈ sortedEntriesOf tasks, ∀ t ∈ e.tasks,
      t.room = e.room ∧ t ∈ weeklyFilter tasks := by
  intro e he t ht
  have he2 : e ∈ roomEntriesOf tasks := (sortedEntriesOf_perm tasks).mem_iff.mp he
  obtain ⟨g, hg, hge⟩ := List.mem_map.mp he2
  have hb := groupByRoom_inv (weeklyFilter tasks) g hg t (by rw [← hge] at ht; exact ht)
  rw [← hge]
  exact hb

theorem sortedEntriesOf_keys_nodup (tasks : List Task) :
    ((sortedEntriesOf tasks).map fun e => e.room).Nodup := by
  have hperm := (sortedEntriesOf_perm tasks).map fun e => e.room
  rw [hperm.nodup_iff]
  have heq : ((roomEntriesOf tasks).map fun e => e.room)
      = (groupByRoom (weeklyFilter tasks)).map Prod.fst := by
    unfold roomEntriesOf
    rw [List.map_map]
    rfl
  rw [heq]
  exact groupByRoom_keys_nodup _

theorem greedyAssign_ids (days : List Nat) :
    ∀ (entries : List RoomEntry) (loads : List (Option Nat × Nat)),
      (greedyAssign days entries loads).map (fun a => a.taskId)
        = (entries.map fun e => e.tasks.map fun t => t.id).flatten := by
  intro entries
  induction entries with
  | nil => intro loads; rfl
  | cons e rest ih =>
    intro loads
    simp only [greedyAssign, List.map_append, List.map_map, List.map_cons,
      List.flatten_cons, ih]
    rfl

theorem weeklyFilter_taskIds_perm (tasks : List Task) (days : List Nat) :
    ((optimizeWeeklySchedule tasks days).map fun a => a.taskId).Perm
      ((weeklyFilter tasks).map fun t => t.id) := by
  unfold optimizeWeeklySchedule
  split <;> rename_i hw
  · rw [hw]
    rfl
  · rw [greedyAssign_ids]
    have h1 : ((sortedEntriesOf tasks).map fun e => e.tasks.map fun t => t.id).Perm
        ((roomEntriesOf tasks).map fun e => e.tasks.map fun t => t.id) :=
      (sortedEntriesOf_perm tasks).map _
    refine h1.flatten.trans ?_
    have h3 : ((roomEntriesOf tasks).map fun e => e.tasks.map fun t => t.id).flatten
        = (roomTasksOf (groupByRoom (weeklyFilter tasks))).map fun t => t.id := by
      unfold roomEntriesOf roomTasksOf
      rw [List.map_map, List.map_flatten, List.map_map]
      rfl
    rw [h3]
    exact (groupByRoom_tasks_perm (weeklyFilter tasks)).map _

/-- C6: the taskIds assigned by `optimizeWeeklySchedule` are exactly the ids
of the Weekly and BiWeekly input tasks — one assignment per such task, no
duplicates, no omissions, and no Daily/Monthly/Quarterly task — and with no
qualifying tasks (including an empty input) the result is the empty list. -/
theorem scheduler_completeness (tasks : List Task) (days : List Nat)
    (h : (tasks.map fun t => t.id).Nodup) :
    ((optimizeWeeklySchedule tasks days).map fun a => a.taskId).Perm
      ((weeklyFilter tasks).map fun t => t.id) ∧
    ((optimizeWeeklySchedule tasks days).map fun a => a.taskId).Nodup ∧
    (weeklyFilter tasks = [] → optimizeWeeklySchedule tasks days = []) := by
  have hperm := weeklyFilter_taskIds_perm tasks days
  refine ⟨hperm, ?_, ?_⟩
  · rw [hperm.nodup_iff]
    exact h.sublist ((List.filter_sublist tasks).map _)
  · intro hw
    unfold optimizeWeeklySchedule
    rw [if_pos hw]

theorem scheduler_completeness_witness :
    ((optimizeWeeklySchedule endToEndTasks [1, 2, 3, 4, 5, 6]).map
      fun a => a.taskId).Perm ((weeklyFilter endToEndTasks).map fun t => t.id) :=
  (scheduler_completeness endToEndTasks [1, 2, 3, 4, 5, 6] (by decide)).1

/-- C7: two Weekly/BiWeekly tasks that share a room are always assigned the
same scheduledDay (room groups are indivisible). -/
theorem scheduler_room_grouping (tasks : List Task) (days : List Nat) (A B : Task)
    (hnd : (tasks.map fun t => t.id).Nodup)
    (hA : A ∈ tasks) (hB : B ∈ tasks) (hroom : A.room = B.room)
    (hAf : A.frequency = Frequency.Weekly ∨ A.frequency = Frequency.BiWeekly)
    (hBf : B.frequency = Frequency.Weekly ∨ B.frequency = Frequency.BiWeekly)
    (a1 a2 : ScheduleAssignment)
    (h1 : a1 ∈ optimizeWeeklySchedule tasks days)
    (h2 : a2 ∈ optimizeWeeklySchedule tasks days)
    (hid1 : a1.taskId = A.id) (hid2 : a2.taskId = B.id) :
    a1.scheduledDay = a2.scheduledDay := by
  by_cases hw : weeklyFilter tasks = []
  · rw [optimizeWeeklySchedule, if_pos hw] at h1
    simp at h1
  · rw [optimizeWeeklySchedule, if_neg hw] at h1 h2
    obtain ⟨p1, e1, q1, hdec1, ⟨t1, ht1, hid1'⟩, hday1⟩ := greedyAssign_mem h1
    obtain ⟨p2, e2, q2, hdec2, ⟨t2, ht2, hid2'⟩, hday2⟩ := greedyAssign_mem h2
    have hmem1 : e1 ∈ sortedEntriesOf tasks := by
      rw [hdec1]
      exact List.mem_append_right p1 (List.mem_cons_self _ _)
    have hmem2 : e2 ∈ sortedEntriesOf tasks := by
      rw [hdec2]
      exact List.mem_append_right p2 (List.mem_cons_self _ _)
    have hi1 := sortedEntriesOf_inv tasks e1 hmem1 t1 ht1
    have hi2 := sortedEntriesOf_inv tasks e2 hmem2 t2 ht2
    have ht1A : t1 = A :=
      List.inj_on_of_nodup_map hnd (List.mem_of_mem_filter hi1.2) hA
        (by rw [← hid1']; exact hid1.symm ▸ rfl)
    have ht2B : t2 = B :=
      List.inj_on_of_nodup_map hnd (List.mem_of_mem_filter hi2.2) hB
        (by rw [← hid2']; exact hid2.symm ▸ rfl)
    have hre : e1.room = e2.room := by
      rw [← hi1.1, ← hi2.1, ht1A, ht2B, hroom]
    have hp : p1 = p2 :=
      entries_decomp_unique (sortedEntriesOf_keys_nodup tasks) hdec1 hdec2 hre
    rw [hday1, hday2, hp]

theorem scheduler_room_grouping_witness :
    (⟨"kitchen-1", some 1⟩ : ScheduleAssignment).scheduledDay
      = (⟨"kitchen-2", some 1⟩ : ScheduleAssignment).scheduledDay :=
  scheduler_room_grouping endToEndTasks [1, 2, 3, 4, 5, 6] kitchenTask1 kitchenTask2
    (by decide) (by decide) (by decide) (by decide) (Or.inl rfl) (Or.inl rfl)
    ⟨"kitchen-1", some 1⟩ ⟨"kitchen-2", some 1⟩ (by decide) (by decide) rfl rfl

/-- C8 (amended): for every input task list and every NON-EMPTY availableDays
list, every emitted assignment's scheduledDay is a member of availableDays.
(With an empty availableDays list the source assigns `availableDays[0]`,
which is `undefined` — see the counterexample.) -/
theorem scheduler_day_bound (tasks : List Task) (days : List Nat)
    (hne : days ≠ []) :
    ∀ a ∈ optimizeWeeklySchedule tasks days, ∃ d ∈ days, a.scheduledDay = some d := by
  intro a ha
  unfold optimizeWeeklySchedule at ha
  split at ha
  · simp at ha
  · obtain ⟨p, entry, q, hdec, hid, hday⟩ := greedyAssign_mem ha
    rw [hday]
    exact findMinDay_mem hne (loadsAfter_keys hne p (initLoads days) (initLoads_keys days))

/-- C8 as frozen is false at availableDays = []: a Weekly task is then
assigned `undefined` (modelled `none`), which is in no availableDays set. -/
theorem scheduler_day_bound_cex :
    optimizeWeeklySchedule [kitchenTask1] [] = [⟨"kitchen-1", none⟩] ∧
    ¬ (∀ a ∈ optimizeWeeklySchedule [kitchenTask1] ([] : List Nat),
        ∃ d ∈ ([] : List Nat), a.scheduledDay = some d) := by
  refine ⟨by decide, ?_⟩
  intro h
  have := h ⟨"kitchen-1", none⟩ (by decide)
  simp at this

theorem scheduler_day_bound_witness :
    ∃ d ∈ [1, 2, 3, 4, 5, 6],
      (⟨"kitchen-1", some 1⟩ : ScheduleAssignment).scheduledDay = some d :=
  scheduler_day_bound endToEndTasks [1, 2, 3, 4, 5, 6] (by decide)
    ⟨"kitchen-1", some 1⟩ (by decide)

/-- C9: the spec's end-to-end scenario.  Three Weekly room groups of 40
(Kitchen), 25 (Bathroom) and 10 (Office) minutes over availableDays
[1,2,3,4,5,6]: groups are sorted heaviest first, Kitchen's tasks all get
day 1, Bathroom day 2, Office day 3, and the final running loads are
day 1 ↦ 40, day 2 ↦ 25, day 3 ↦ 10 (days 4..6 stay 0). -/
theorem scheduler_end_to_end :
    (sortedEntriesOf endToEndTasks).map (fun e => e.room)
      = ["Kitchen", "Bathroom", "Office"] ∧
    optimizeWeeklySchedule endToEndTasks [1, 2, 3, 4, 5, 6]
      = [⟨"kitchen-1", some 1⟩, ⟨"kitchen-2", some 1⟩, ⟨"bathroom-1", some 2⟩,
          ⟨"office-1", some 3⟩] ∧
    loadsAfter [1, 2, 3, 4, 5, 6] (sortedEntriesOf endToEndTasks)
        (initLoads [1, 2, 3, 4, 5, 6])
      = [(some 1, 40), (some 2, 25), (some 3, 10), (some 4, 0), (some 5, 0),
          (some 6, 0)] := by
  refine ⟨by decide, by decide, by decide⟩

end TidyHome
